import Mathlib

/-!
Shallow embedding of the Minesweeper AI core (`src/minesweeper.py`):
the `Sentence` knowledge representation and the `MinesweeperAI` inference
engine (`mark_mine`, `mark_safe`, `add_knowledge`, `infer_safes_and_mines`,
`make_safe_move`, `make_random_move`), together with theorems settling the
specification claims.

Conventions of the embedding:
* a board cell `(i, j)` is a pair of integers (Python `int`s), and a
  sentence count is an integer (it can go negative, as in the source);
* Python `set`s become `Finset`s; where the source iterates over a Python
  set, the loop body only performs pointwise `mark_safe` / `mark_mine`
  calls, which commute for distinct cells, so such loops are embedded by
  their order-independent result (`markSafeSet` / `markMineSet`); the
  theorems `Sentence.foldl_mark_safe`, `Sentence.foldl_mark_mine`,
  `AI.foldl_engine_mark_safe` and `AI.foldl_engine_mark_mine` prove that
  marking one
  cell at a time, in any enumeration order of the set, yields exactly
  that result;
* `random.choice` from a non-empty list is modelled by taking the head of
  the (deterministically ordered) candidate list; every claim below only
  depends on whether the candidate list is empty, never on which element
  is chosen;
* in-place mutation of sentences becomes explicit state passing: the list
  `knowledge` is rewritten wholesale wherever the source mutates the
  sentence objects it holds.
-/

namespace Mines

/-- A board cell `(row, column)`, a pair of Python integers. -/
abbrev Cell : Type := ℤ × ℤ

/-- The `Sentence` class: a set of cells and a count of how many of them are
mines.  Python `__eq__` compares `cells` and `count`, which is exactly
structural equality here. -/
structure Sentence where
  cells : Finset Cell
  count : ℤ
  deriving DecidableEq

/-- Removing one cell and then a set is removing the enlarged set. -/
theorem erase_sdiff_comm (s t : Finset Cell) (a : Cell) :
    (s.erase a) \ t = s \ insert a t := by
  ext x
  simp only [Finset.mem_sdiff, Finset.mem_erase, Finset.mem_insert, not_or]
  tauto

namespace Sentence

/-- The `known_mines` method: all of `cells` when `len(cells) == count` and
`count > 0`, otherwise the empty set. -/
def known_mines (s : Sentence) : Finset Cell :=
  if (s.cells.card : ℤ) = s.count ∧ 0 < s.count then s.cells else ∅

/-- The `known_safes` method: all of `cells` when `count == 0`, otherwise the
empty set. -/
def known_safes (s : Sentence) : Finset Cell :=
  if s.count = 0 then s.cells else ∅

/-- The `mark_mine` method: if the cell is present, remove it and decrement
the count. -/
def mark_mine (s : Sentence) (c : Cell) : Sentence :=
  if c ∈ s.cells then ⟨s.cells.erase c, s.count - 1⟩ else s

/-- The `mark_safe` method: if the cell is present, remove it (count
unchanged). -/
def mark_safe (s : Sentence) (c : Cell) : Sentence :=
  if c ∈ s.cells then ⟨s.cells.erase c, s.count⟩ else s

/-- The result of marking every cell of a set safe, one `mark_safe` call per
cell; order-independent, see `foldl_mark_safe`. -/
def markSafeSet (s : Sentence) (S : Finset Cell) : Sentence :=
  ⟨s.cells \ S, s.count⟩

/-- The result of marking every cell of a set as a mine, one `mark_mine`
call per cell; order-independent, see `foldl_mark_mine`. -/
def markMineSet (s : Sentence) (S : Finset Cell) : Sentence :=
  ⟨s.cells \ S, s.count - ((s.cells ∩ S).card : ℤ)⟩

theorem mark_safe_eq (s : Sentence) (c : Cell) :
    s.mark_safe c = ⟨s.cells.erase c, s.count⟩ := by
  unfold mark_safe
  by_cases h : c ∈ s.cells
  · simp [h]
  · simp [h, Finset.erase_eq_of_not_mem h]

theorem mark_mine_eq (s : Sentence) (c : Cell) :
    s.mark_mine c =
      ⟨s.cells.erase c, if c ∈ s.cells then s.count - 1 else s.count⟩ := by
  unfold mark_mine
  by_cases h : c ∈ s.cells
  · simp [h]
  · simp [h, Finset.erase_eq_of_not_mem h]

/-- Marking the cells of a list safe one at a time is `markSafeSet` of the
underlying set: the loop order is irrelevant. -/
theorem foldl_mark_safe (l : List Cell) (s : Sentence) :
    l.foldl mark_safe s = s.markSafeSet l.toFinset := by
  induction l generalizing s with
  | nil => simp [markSafeSet]
  | cons a t ih =>
      simp only [List.foldl_cons, ih, mark_safe_eq, markSafeSet,
        List.toFinset_cons, Sentence.mk.injEq]
      exact ⟨erase_sdiff_comm _ _ _, trivial⟩

/-- Marking the cells of a duplicate-free list as mines one at a time is
`markMineSet` of the underlying set: the loop order is irrelevant. -/
theorem foldl_mark_mine (l : List Cell) (hl : l.Nodup) (s : Sentence) :
    l.foldl mark_mine s = s.markMineSet l.toFinset := by
  induction l generalizing s with
  | nil => simp [markMineSet]
  | cons a t ih =>
      obtain ⟨ha, ht⟩ := List.nodup_cons.mp hl
      simp only [List.foldl_cons, mark_mine_eq, ih ht, markMineSet,
        List.toFinset_cons]
      have hcells : (s.cells.erase a) \ t.toFinset = s.cells \ insert a t.toFinset :=
        erase_sdiff_comm _ _ _
      have hinter : s.cells.erase a ∩ t.toFinset = s.cells ∩ t.toFinset := by
        ext x
        simp only [Finset.mem_inter, Finset.mem_erase]
        constructor
        · rintro ⟨⟨_, hx⟩, hxt⟩; exact ⟨hx, hxt⟩
        · rintro ⟨hx, hxt⟩
          refine ⟨⟨?_, hx⟩, hxt⟩
          rintro rfl; exact ha (List.mem_toFinset.mp hxt)
      by_cases h : a ∈ s.cells
      · have h2 : s.cells ∩ insert a t.toFinset
            = insert a (s.cells ∩ t.toFinset) := by
          ext x
          simp only [Finset.mem_inter, Finset.mem_insert]
          constructor
          · rintro ⟨hx, rfl | hxt⟩
            · exact Or.inl rfl
            · exact Or.inr ⟨hx, hxt⟩
          · rintro (rfl | ⟨hx, hxt⟩)
            · exact ⟨h, Or.inl rfl⟩
            · exact ⟨hx, Or.inr hxt⟩
        have h3 : a ∉ s.cells ∩ t.toFinset := by
          simp only [Finset.mem_inter, List.mem_toFinset]
          rintro ⟨_, hat⟩; exact ha hat
        simp only [if_pos h, Sentence.mk.injEq]
        refine ⟨hcells, ?_⟩
        rw [hinter, h2, Finset.card_insert_of_not_mem h3]
        push_cast
        ring
      · have h2 : s.cells ∩ insert a t.toFinset = s.cells ∩ t.toFinset := by
          ext x
          simp only [Finset.mem_inter, Finset.mem_insert]
          constructor
          · rintro ⟨hx, rfl | hxt⟩
            · exact absurd hx h
            · exact ⟨hx, hxt⟩
          · rintro ⟨hx, hxt⟩; exact ⟨hx, Or.inr hxt⟩
        have he : s.cells.erase a = s.cells := Finset.erase_eq_of_not_mem h
        simp only [if_neg h, Sentence.mk.injEq, he]
        rw [he] at hcells
        exact ⟨hcells, by rw [h2]⟩

end Sentence

/-- The `MinesweeperAI` engine state: board dimensions, the cells already
played, the cells known to be mines or safe, and the list of sentences. -/
structure AI where
  height : ℤ
  width : ℤ
  moves_made : Finset Cell
  mines : Finset Cell
  safes : Finset Cell
  knowledge : List Sentence
  deriving DecidableEq

namespace AI

/-- The `MinesweeperAI.__init__` constructor. -/
def init (h w : ℤ) : AI := ⟨h, w, ∅, ∅, ∅, []⟩

/-- The engine `mark_mine`: record the mine and broadcast it to every
sentence. -/
def mark_mine (ai : AI) (c : Cell) : AI :=
  { ai with
    mines := insert c ai.mines
    knowledge := ai.knowledge.map (fun s => s.mark_mine c) }

/-- The engine `mark_safe`: record the safe cell and broadcast it to every
sentence. -/
def mark_safe (ai : AI) (c : Cell) : AI :=
  { ai with
    safes := insert c ai.safes
    knowledge := ai.knowledge.map (fun s => s.mark_safe c) }

/-- The result of the loop `for safe in S: self.mark_safe(safe)`:
order-independent, see `foldl_mark_safe`. -/
def markSafeSet (ai : AI) (S : Finset Cell) : AI :=
  { ai with
    safes := ai.safes ∪ S
    knowledge := ai.knowledge.map (fun s => s.markSafeSet S) }

/-- The result of the loop `for mine in S: self.mark_mine(mine)`:
order-independent, see `foldl_mark_mine`. -/
def markMineSet (ai : AI) (S : Finset Cell) : AI :=
  { ai with
    mines := ai.mines ∪ S
    knowledge := ai.knowledge.map (fun s => s.markMineSet S) }

/-- Engine-level `mark_safe` of each list element in turn agrees with
`markSafeSet` of the underlying set, whatever the enumeration order. -/
theorem foldl_engine_mark_safe (l : List Cell) (ai : AI) :
    l.foldl mark_safe ai = ai.markSafeSet l.toFinset := by
  induction l generalizing ai with
  | nil =>
      simp only [List.foldl_nil, markSafeSet, List.toFinset_nil,
        Finset.union_empty]
      cases ai with
      | mk h w mm mn sf kn => simp [Sentence.markSafeSet]
  | cons a t ih =>
      simp only [List.foldl_cons, ih, mark_safe, markSafeSet,
        List.toFinset_cons, List.map_map, AI.mk.injEq, true_and]
      refine ⟨?_, ?_⟩
      · ext x
        simp only [Finset.mem_union, Finset.mem_insert, List.mem_toFinset]
        tauto
      · apply List.map_congr_left
        intro s _
        simp only [Function.comp_apply, Sentence.mark_safe_eq,
          Sentence.markSafeSet, Sentence.mk.injEq]
        exact ⟨erase_sdiff_comm _ _ _, trivial⟩

/-- Engine-level `mark_mine` of each element of a duplicate-free list in
turn agrees with `markMineSet` of the underlying set. -/
theorem foldl_engine_mark_mine (l : List Cell) (hl : l.Nodup) (ai : AI) :
    l.foldl mark_mine ai = ai.markMineSet l.toFinset := by
  induction l generalizing ai with
  | nil =>
      simp only [List.foldl_nil, markMineSet, List.toFinset_nil,
        Finset.union_empty]
      cases ai with
      | mk h w mm mn sf kn => simp [Sentence.markMineSet]
  | cons a t ih =>
      obtain ⟨ha, ht⟩ := List.nodup_cons.mp hl
      simp only [List.foldl_cons, ih ht, mark_mine, markMineSet,
        List.toFinset_cons, List.map_map, AI.mk.injEq, true_and]
      refine ⟨?_, ?_⟩
      · ext x
        simp only [Finset.mem_union, Finset.mem_insert, List.mem_toFinset]
        tauto
      · apply List.map_congr_left
        intro s _
        have h1 : (s.mark_mine a).markMineSet t.toFinset
            = (a :: t).foldl Sentence.mark_mine s := by
          simp only [List.foldl_cons]
          exact (Sentence.foldl_mark_mine t ht (s.mark_mine a)).symm
        have h2 := Sentence.foldl_mark_mine (a :: t) hl s
        simp only [Function.comp_apply, h1, h2, List.toFinset_cons]

/-- The loop body of `infer_safes_and_mines`: visit the sentence at index
`k` of the (possibly already rewritten) knowledge list, fold its
`known_safes` / `known_mines` into the running accumulators, then re-mark
every accumulated safe cell and then every accumulated mine cell, exactly
as the source does inside the `for sentence in self.knowledge` loop.  The
`fuel` argument is the number of sentences left to visit; the list's length
never changes during the loop. -/
def inferAux (ai : AI) (sf mn : Finset Cell) (k : ℕ) : ℕ → AI
  | 0 => ai
  | fuel + 1 =>
    match ai.knowledge.get? k with
    | none => ai
    | some s =>
      let sf' := sf ∪ s.known_safes
      let mn' := mn ∪ s.known_mines
      let ai' := (ai.markSafeSet sf').markMineSet mn'
      inferAux ai' sf' mn' (k + 1) fuel

/-- The `infer_safes_and_mines` method: one pass over the knowledge list,
accumulating and broadcasting resolved cells as it goes. -/
def infer_safes_and_mines (ai : AI) : AI :=
  inferAux ai ∅ ∅ 0 ai.knowledge.length

/-- The nine candidate neighbour coordinates scanned by the two nested
`range(cell[i] - 1, cell[i] + 2)` loops, in source iteration order (the
cell itself is filtered out inside the loop body). -/
def nbrOffsets (cell : Cell) : List Cell :=
  [(cell.1 - 1, cell.2 - 1), (cell.1 - 1, cell.2), (cell.1 - 1, cell.2 + 1),
   (cell.1, cell.2 - 1), (cell.1, cell.2), (cell.1, cell.2 + 1),
   (cell.1 + 1, cell.2 - 1), (cell.1 + 1, cell.2), (cell.1 + 1, cell.2 + 1)]

/-- The guard `(i, j) != cell and 0 <= i < height and 0 <= j < width` of
the neighbourhood loop. -/
def nbrOK (ai : AI) (cell p : Cell) : Prop :=
  p ≠ cell ∧ 0 ≤ p.1 ∧ p.1 < ai.height ∧ 0 ≤ p.2 ∧ p.2 < ai.width

instance (ai : AI) (cell p : Cell) : Decidable (nbrOK ai cell p) := by
  unfold nbrOK; infer_instance

/-- One iteration of the neighbourhood loop in `add_knowledge`: skip the
cell itself and out-of-bounds coordinates; collect an undetermined
neighbour; a neighbour already known to be a mine decrements the working
count; a known-safe neighbour is skipped. -/
def probeStep (ai : AI) (cell : Cell) (acc : Finset Cell × ℤ) (p : Cell) :
    Finset Cell × ℤ :=
  if nbrOK ai cell p then
    if p ∉ ai.safes ∧ p ∉ ai.mines then (insert p acc.1, acc.2)
    else if p ∈ ai.mines then (acc.1, acc.2 - 1)
    else acc
  else acc

/-- The `closest` set and adjusted count computed by the neighbourhood loop
of `add_knowledge`. -/
def closestAndCount (ai : AI) (cell : Cell) (count : ℤ) : Finset Cell × ℤ :=
  (nbrOffsets cell).foldl (probeStep ai cell) (∅, count)

/-- The new sentence `Sentence(closest, count)` built by `add_knowledge`
from a probed cell and its reported count. -/
def probeSentence (ai : AI) (cell : Cell) (count : ℤ) : Sentence :=
  ⟨(ai.closestAndCount cell count).1, (ai.closestAndCount cell count).2⟩

/-- The state of `add_knowledge` after its first four steps: record the
move, mark the probed cell safe, and append the new sentence built from the
neighbourhood (appended unconditionally, even when its cell set is
empty). -/
def afterProbe (ai : AI) (cell : Cell) (count : ℤ) : AI :=
  let ai1 := { ai with moves_made := insert cell ai.moves_made }
  let ai2 := ai1.mark_safe cell
  { ai2 with knowledge := ai2.knowledge ++ [ai2.probeSentence cell count] }

/-- One iteration of the nested pairwise-inference loops of
`add_knowledge`, acting on the pair of knowledge indices `ij`.  The state
is the engine (whose sentences mutate as overlap marks fire) together with
the `new_KB` accumulator.  `sentence_1` is `knowledge[ij.1]`, `sentence_2`
is `knowledge[ij.2]`, read from the current list. -/
def pairStep (st : AI × List Sentence) (ij : ℕ × ℕ) : AI × List Sentence :=
  match st.1.knowledge.get? ij.1, st.1.knowledge.get? ij.2 with
  | some s1, some s2 =>
    if s1 ≠ s2 ∧ s1.cells ⊆ s2.cells then
      let cand : Sentence := ⟨s2.cells \ s1.cells, s2.count - s1.count⟩
      let kb' := if cand ∉ st.1.knowledge ∧ cand ∉ st.2
        then st.2 ++ [cand] else st.2
      let overlap := s1.cells ∩ s2.cells
      let ai' :=
        if overlap.Nonempty then
          if s1.count = 0 then st.1.markSafeSet overlap
          else if s1.count = s2.count ∧ s2.count = (overlap.card : ℤ) then
            st.1.markMineSet overlap
          else st.1
        else st.1
      (ai', kb')
    else st
  | _, _ => st

/-- All ordered index pairs `(i, j)` with `i, j < n`, in the iteration
order of the two nested `for sentence in self.knowledge` loops. -/
def pairIdx (n : ℕ) : List (ℕ × ℕ) :=
  (List.range n).flatMap (fun i => (List.range n).map (fun j => (i, j)))

/-- The pairwise-inference phase of `add_knowledge`: scan every ordered
pair of knowledge indices, then extend the knowledge list with the
accumulated `new_KB`. -/
def pairwisePass (ai : AI) : AI :=
  let st := (pairIdx ai.knowledge.length).foldl pairStep (ai, [])
  { st.1 with knowledge := st.1.knowledge ++ st.2 }

/-- The `add_knowledge` method: record the move, mark the probed cell safe,
append the probe sentence, run direct inference, run the pairwise pass
(which appends `new_KB`), and run direct inference again. -/
def add_knowledge (ai : AI) (cell : Cell) (count : ℤ) : AI :=
  (((ai.afterProbe cell count).infer_safes_and_mines).pairwisePass).infer_safes_and_mines

/-- The per-sentence filter both move functions apply to a candidate cell:
the cell must not occur in any sentence whose count is non-zero. -/
def validCell (ai : AI) (c : Cell) : Prop :=
  ∀ s ∈ ai.knowledge, c ∉ s.cells ∨ s.count = 0

instance (ai : AI) (c : Cell) : Decidable (ai.validCell c) :=
  List.decidableBAll _ ai.knowledge

/-- Lexicographic order on cells, used only to enumerate a Python set as a
deterministic list (Python's own iteration order is arbitrary). -/
def cellLE (a b : Cell) : Prop := a.1 < b.1 ∨ (a.1 = b.1 ∧ a.2 ≤ b.2)

instance : DecidableRel cellLE := fun a b => by
  unfold cellLE; infer_instance

instance : IsTrans Cell cellLE := ⟨by
  intro a b c h1 h2
  unfold cellLE at *
  omega⟩

instance : IsAntisymm Cell cellLE := ⟨by
  intro a b h1 h2
  obtain ⟨x, y⟩ := a
  obtain ⟨u, v⟩ := b
  unfold cellLE at *
  simp only [Prod.mk.injEq]
  omega⟩

instance : IsTotal Cell cellLE := ⟨by
  intro a b
  unfold cellLE
  omega⟩

/-- The sorted candidate list of `make_safe_move`: `safes - moves_made`
restricted by the per-sentence filter.  (The source materialises an
unordered Python list; only emptiness and membership matter to any claim.) -/
def validSafeList (ai : AI) : List Cell :=
  ((ai.safes \ ai.moves_made).sort cellLE).filter (fun c => decide (ai.validCell c))

/-- The `make_safe_move` method.  It only reads the engine state; the
returned pair carries the (unchanged) state to make that explicit.
`random.choice` on a non-empty candidate list is modelled by its head. -/
def make_safe_move (ai : AI) : Option Cell × AI :=
  (ai.validSafeList.head?, ai)

/-- The set comprehension `all_cells` of `make_random_move`: every board
coordinate. -/
def allCells (ai : AI) : Finset Cell :=
  Finset.Ico 0 ai.height ×ˢ Finset.Ico 0 ai.width

/-- The board coordinates as a list, in the iteration order of the
comprehension `(i, j) for i in range(height) for j in range(width)`. -/
def boardCellsList (ai : AI) : List Cell :=
  (List.range ai.height.toNat).flatMap
    (fun i => (List.range ai.width.toNat).map (fun j => ((i : ℤ), (j : ℤ))))

/-- The candidate list of `make_random_move`: board cells neither played
nor known mines (`all_cells - moves_made - mines`), restricted by the
per-sentence filter.  (The source materialises an unordered Python list;
only emptiness and membership matter to any claim.) -/
def validRandomList (ai : AI) : List Cell :=
  (ai.boardCellsList.filter
    (fun c => decide (c ∉ ai.moves_made ∧ c ∉ ai.mines))).filter
    (fun c => decide (ai.validCell c))

/-- The `make_random_move` method: `None` when every board cell is counted
as played or mined, else a choice from the filtered candidates (`None`
when the filter leaves nothing).  Only reads the engine state. -/
def make_random_move (ai : AI) : Option Cell × AI :=
  if (ai.mines.card : ℤ) + (ai.moves_made.card : ℤ) = ai.height * ai.width
    then (none, ai)
    else (ai.validRandomList.head?, ai)

@[simp] theorem mark_mine_height (ai : AI) (c : Cell) :
    (ai.mark_mine c).height = ai.height := rfl

@[simp] theorem mark_mine_width (ai : AI) (c : Cell) :
    (ai.mark_mine c).width = ai.width := rfl

@[simp] theorem mark_mine_moves (ai : AI) (c : Cell) :
    (ai.mark_mine c).moves_made = ai.moves_made := rfl

@[simp] theorem mark_mine_mines (ai : AI) (c : Cell) :
    (ai.mark_mine c).mines = insert c ai.mines := rfl

@[simp] theorem mark_mine_safes (ai : AI) (c : Cell) :
    (ai.mark_mine c).safes = ai.safes := rfl

@[simp] theorem mark_mine_knowledge (ai : AI) (c : Cell) :
    (ai.mark_mine c).knowledge = ai.knowledge.map (fun s => s.mark_mine c) := rfl

@[simp] theorem mark_safe_height (ai : AI) (c : Cell) :
    (ai.mark_safe c).height = ai.height := rfl

@[simp] theorem mark_safe_width (ai : AI) (c : Cell) :
    (ai.mark_safe c).width = ai.width := rfl

@[simp] theorem mark_safe_moves (ai : AI) (c : Cell) :
    (ai.mark_safe c).moves_made = ai.moves_made := rfl

@[simp] theorem mark_safe_mines (ai : AI) (c : Cell) :
    (ai.mark_safe c).mines = ai.mines := rfl

@[simp] theorem mark_safe_safes (ai : AI) (c : Cell) :
    (ai.mark_safe c).safes = insert c ai.safes := rfl

@[simp] theorem mark_safe_knowledge (ai : AI) (c : Cell) :
    (ai.mark_safe c).knowledge = ai.knowledge.map (fun s => s.mark_safe c) := rfl

@[simp] theorem markSafeSet_height (ai : AI) (S : Finset Cell) :
    (ai.markSafeSet S).height = ai.height := rfl

@[simp] theorem markSafeSet_width (ai : AI) (S : Finset Cell) :
    (ai.markSafeSet S).width = ai.width := rfl

@[simp] theorem markSafeSet_moves (ai : AI) (S : Finset Cell) :
    (ai.markSafeSet S).moves_made = ai.moves_made := rfl

@[simp] theorem markSafeSet_mines (ai : AI) (S : Finset Cell) :
    (ai.markSafeSet S).mines = ai.mines := rfl

@[simp] theorem markSafeSet_safes (ai : AI) (S : Finset Cell) :
    (ai.markSafeSet S).safes = ai.safes ∪ S := rfl

@[simp] theorem markSafeSet_knowledge (ai : AI) (S : Finset Cell) :
    (ai.markSafeSet S).knowledge
      = ai.knowledge.map (fun s => s.markSafeSet S) := rfl

@[simp] theorem markMineSet_height (ai : AI) (S : Finset Cell) :
    (ai.markMineSet S).height = ai.height := rfl

@[simp] theorem markMineSet_width (ai : AI) (S : Finset Cell) :
    (ai.markMineSet S).width = ai.width := rfl

@[simp] theorem markMineSet_moves (ai : AI) (S : Finset Cell) :
    (ai.markMineSet S).moves_made = ai.moves_made := rfl

@[simp] theorem markMineSet_mines (ai : AI) (S : Finset Cell) :
    (ai.markMineSet S).mines = ai.mines ∪ S := rfl

@[simp] theorem markMineSet_safes (ai : AI) (S : Finset Cell) :
    (ai.markMineSet S).safes = ai.safes := rfl

@[simp] theorem markMineSet_knowledge (ai : AI) (S : Finset Cell) :
    (ai.markMineSet S).knowledge
      = ai.knowledge.map (fun s => s.markMineSet S) := rfl

/-- Growth relation for the three engine sets: used to show that the
operations only ever enlarge `moves_made`, `safes` and `mines`. -/
def Grows (a b : AI) : Prop :=
  a.moves_made ⊆ b.moves_made ∧ a.safes ⊆ b.safes ∧ a.mines ⊆ b.mines

theorem Grows.rfl (a : AI) : Grows a a :=
  ⟨Finset.Subset.refl _, Finset.Subset.refl _, Finset.Subset.refl _⟩

theorem Grows.trans {a b c : AI} (h1 : Grows a b) (h2 : Grows b c) :
    Grows a c :=
  ⟨h1.1.trans h2.1, h1.2.1.trans h2.2.1, h1.2.2.trans h2.2.2⟩

theorem grows_mark_mine (ai : AI) (c : Cell) : Grows ai (ai.mark_mine c) :=
  ⟨Finset.Subset.refl _, Finset.Subset.refl _, Finset.subset_insert _ _⟩

theorem grows_mark_safe (ai : AI) (c : Cell) : Grows ai (ai.mark_safe c) :=
  ⟨Finset.Subset.refl _, Finset.subset_insert _ _, Finset.Subset.refl _⟩

theorem grows_markSafeSet (ai : AI) (S : Finset Cell) :
    Grows ai (ai.markSafeSet S) :=
  ⟨Finset.Subset.refl _, Finset.subset_union_left, Finset.Subset.refl _⟩

theorem grows_markMineSet (ai : AI) (S : Finset Cell) :
    Grows ai (ai.markMineSet S) :=
  ⟨Finset.Subset.refl _, Finset.Subset.refl _, Finset.subset_union_left⟩

theorem grows_inferAux (ai : AI) (sf mn : Finset Cell) (k fuel : ℕ) :
    Grows ai (inferAux ai sf mn k fuel) := by
  induction fuel generalizing ai sf mn k with
  | zero => exact Grows.rfl ai
  | succ fuel ih =>
      rw [inferAux]
      cases h : ai.knowledge.get? k with
      | none => exact Grows.rfl ai
      | some s =>
          exact ((grows_markSafeSet ai _).trans
            (grows_markMineSet _ _)).trans (ih _ _ _ _)

theorem grows_infer (ai : AI) : Grows ai ai.infer_safes_and_mines :=
  grows_inferAux ai ∅ ∅ 0 ai.knowledge.length

theorem grows_pairStep (st : AI × List Sentence) (ij : ℕ × ℕ) :
    Grows st.1 (pairStep st ij).1 := by
  rw [pairStep]
  cases h1 : st.1.knowledge.get? ij.1 with
  | none => exact Grows.rfl st.1
  | some s1 =>
      cases h2 : st.1.knowledge.get? ij.2 with
      | none => exact Grows.rfl st.1
      | some s2 =>
          by_cases hc : s1 ≠ s2 ∧ s1.cells ⊆ s2.cells
          · simp only [if_pos hc]
            by_cases ho : (s1.cells ∩ s2.cells).Nonempty
            · simp only [if_pos ho]
              by_cases hz : s1.count = 0
              · simp only [if_pos hz]
                exact grows_markSafeSet _ _
              · simp only [if_neg hz]
                by_cases hm : s1.count = s2.count
                    ∧ s2.count = ((s1.cells ∩ s2.cells).card : ℤ)
                · simp only [if_pos hm]
                  exact grows_markMineSet _ _
                · simp only [if_neg hm]
                  exact Grows.rfl st.1
            · simp only [if_neg ho]
              exact Grows.rfl st.1
          · simp only [if_neg hc]
            exact Grows.rfl st.1

theorem grows_foldl_pairStep (ps : List (ℕ × ℕ)) (st : AI × List Sentence) :
    Grows st.1 (ps.foldl pairStep st).1 := by
  induction ps generalizing st with
  | nil => exact Grows.rfl st.1
  | cons p t ih =>
      exact (grows_pairStep st p).trans (ih (pairStep st p))

theorem grows_pairwisePass (ai : AI) : Grows ai ai.pairwisePass := by
  unfold pairwisePass
  exact grows_foldl_pairStep _ (ai, [])

theorem grows_afterProbe (ai : AI) (cell : Cell) (count : ℤ) :
    Grows ai (ai.afterProbe cell count) := by
  unfold afterProbe
  refine ⟨?_, ?_, ?_⟩
  · exact (Finset.subset_insert _ _).trans (Finset.Subset.refl _)
  · exact Finset.subset_insert _ _
  · exact Finset.Subset.refl _

theorem grows_add_knowledge (ai : AI) (cell : Cell) (count : ℤ) :
    Grows ai (ai.add_knowledge cell count) := by
  unfold add_knowledge
  exact ((grows_afterProbe ai cell count).trans
    (grows_infer _)).trans ((grows_pairwisePass _).trans (grows_infer _))

/-- The spec's formula for the Moore neighbourhood of a probed cell: the
up-to-8 in-bounds cells at row/column offsets in `{-1, 0, 1}`, the cell
itself excluded.  Used to compare the neighbourhood loop with the spec's
description. -/
def mooreNbhd (h w : ℤ) (cell : Cell) : Finset Cell :=
  ((Finset.Ico (cell.1 - 1) (cell.1 + 2)) ×ˢ
      (Finset.Ico (cell.2 - 1) (cell.2 + 2))).filter
    (fun p => p ≠ cell ∧ 0 ≤ p.1 ∧ p.1 < h ∧ 0 ≤ p.2 ∧ p.2 < w)

theorem nbrOffsets_nodup (cell : Cell) : (nbrOffsets cell).Nodup := by
  obtain ⟨r, c⟩ := cell
  simp only [nbrOffsets, List.nodup_cons, List.mem_cons, List.mem_singleton,
    List.not_mem_nil, not_false_iff, and_true, List.nodup_nil, not_or,
    Prod.mk.injEq, not_and]
  refine ⟨?_, ?_, ?_, ?_, ?_, ?_, ?_, ?_⟩ <;> omega

theorem mem_nbrOffsets (cell p : Cell) :
    p ∈ nbrOffsets cell ↔
      cell.1 - 1 ≤ p.1 ∧ p.1 ≤ cell.1 + 1 ∧ cell.2 - 1 ≤ p.2
        ∧ p.2 ≤ cell.2 + 1 := by
  obtain ⟨r, c⟩ := cell
  obtain ⟨x, y⟩ := p
  simp only [nbrOffsets, List.mem_cons, List.not_mem_nil, or_false,
    Prod.mk.injEq]
  omega

/-- The bounds-and-self guard over the nine offsets carves out exactly the
Moore neighbourhood. -/
theorem filter_nbrOK_eq_moore (ai : AI) (cell : Cell) :
    (nbrOffsets cell).toFinset.filter (fun p => nbrOK ai cell p)
      = mooreNbhd ai.height ai.width cell := by
  ext p
  simp only [Finset.mem_filter, List.mem_toFinset, mem_nbrOffsets, mooreNbhd,
    Finset.mem_product, Finset.mem_Ico, nbrOK]
  constructor
  · rintro ⟨hbox, hne, hb⟩
    exact ⟨⟨by omega, by omega⟩, hne, hb⟩
  · rintro ⟨⟨h1, h2⟩, hne, hb⟩
    exact ⟨⟨by omega, by omega, by omega, by omega⟩, hne, hb⟩

/-- Closed form of the neighbourhood loop over any duplicate-free candidate
list: the collected set is the guarded undetermined cells, and the count is
decremented once per guarded known mine. -/
theorem probeFold (ai : AI) (cell : Cell) (l : List Cell) (hl : l.Nodup)
    (acc : Finset Cell × ℤ) :
    l.foldl (probeStep ai cell) acc =
      (acc.1 ∪ l.toFinset.filter
          (fun p => nbrOK ai cell p ∧ p ∉ ai.safes ∧ p ∉ ai.mines),
        acc.2 - ((l.toFinset.filter
          (fun p => nbrOK ai cell p ∧ p ∈ ai.mines)).card : ℤ)) := by
  induction l generalizing acc with
  | nil => simp
  | cons a t ih =>
      obtain ⟨ha, ht⟩ := List.nodup_cons.mp hl
      have hat : a ∉ t.toFinset := fun hmem => ha (List.mem_toFinset.mp hmem)
      simp only [List.foldl_cons, ih ht, List.toFinset_cons,
        Finset.filter_insert]
      by_cases hok : nbrOK ai cell a
      · by_cases hun : a ∉ ai.safes ∧ a ∉ ai.mines
        · have hstep : probeStep ai cell acc a = (insert a acc.1, acc.2) := by
            unfold probeStep
            rw [if_pos hok, if_pos hun]
          have hmm : ¬(nbrOK ai cell a ∧ a ∈ ai.mines) := by
            rintro ⟨_, hm⟩; exact hun.2 hm
          rw [hstep, if_pos ⟨hok, hun⟩, if_neg hmm]
          refine Prod.ext ?_ rfl
          show insert a acc.1 ∪ _ = acc.1 ∪ insert a _
          rw [Finset.insert_union, Finset.union_insert]
        · by_cases hm : a ∈ ai.mines
          · have hstep : probeStep ai cell acc a = (acc.1, acc.2 - 1) := by
              unfold probeStep
              rw [if_pos hok, if_neg hun, if_pos hm]
            have hnotf : ¬(nbrOK ai cell a ∧ a ∉ ai.safes ∧ a ∉ ai.mines) := by
              rintro ⟨_, hf⟩; exact hun hf
            have hnm : a ∉ t.toFinset.filter
                (fun p => nbrOK ai cell p ∧ p ∈ ai.mines) := by
              intro hmem
              exact hat (Finset.mem_of_mem_filter a hmem)
            rw [hstep, if_neg hnotf, if_pos ⟨hok, hm⟩]
            refine Prod.ext rfl ?_
            show acc.2 - 1 - _ = acc.2 - _
            rw [Finset.card_insert_of_not_mem hnm]
            push_cast
            ring
          · have hstep : probeStep ai cell acc a = acc := by
              unfold probeStep
              rw [if_pos hok, if_neg hun, if_neg hm]
            have hnotf : ¬(nbrOK ai cell a ∧ a ∉ ai.safes ∧ a ∉ ai.mines) := by
              rintro ⟨_, hf⟩; exact hun hf
            have hnotm : ¬(nbrOK ai cell a ∧ a ∈ ai.mines) := by
              rintro ⟨_, hf⟩; exact hm hf
            rw [hstep, if_neg hnotf, if_neg hnotm]
      · have hstep : probeStep ai cell acc a = acc := by
          unfold probeStep
          rw [if_neg hok]
        have hnotf : ¬(nbrOK ai cell a ∧ a ∉ ai.safes ∧ a ∉ ai.mines) := by
          rintro ⟨hf, _⟩; exact hok hf
        have hnotm : ¬(nbrOK ai cell a ∧ a ∈ ai.mines) := by
          rintro ⟨hf, _⟩; exact hok hf
        rw [hstep, if_neg hnotf, if_neg hnotm]

/-- Closed form of the probe computation: the new sentence's cells are the
Moore neighbourhood minus the already-resolved cells, and its count is the
reported count minus one per known mine in the neighbourhood. -/
theorem closestAndCount_eq (ai : AI) (cell : Cell) (count : ℤ) :
    ai.closestAndCount cell count =
      (mooreNbhd ai.height ai.width cell \ (ai.safes ∪ ai.mines),
        count - ((mooreNbhd ai.height ai.width cell ∩ ai.mines).card : ℤ)) := by
  unfold closestAndCount
  rw [probeFold ai cell _ (nbrOffsets_nodup cell)]
  have h1 : (nbrOffsets cell).toFinset.filter
        (fun p => nbrOK ai cell p ∧ p ∉ ai.safes ∧ p ∉ ai.mines)
      = (mooreNbhd ai.height ai.width cell).filter
        (fun p => p ∉ ai.safes ∧ p ∉ ai.mines) := by
    rw [← filter_nbrOK_eq_moore ai cell, Finset.filter_filter]
  have h2 : (nbrOffsets cell).toFinset.filter
        (fun p => nbrOK ai cell p ∧ p ∈ ai.mines)
      = (mooreNbhd ai.height ai.width cell).filter (fun p => p ∈ ai.mines) := by
    rw [← filter_nbrOK_eq_moore ai cell, Finset.filter_filter]
  rw [h1, h2]
  refine congrArg₂ Prod.mk ?_ ?_
  · rw [Finset.empty_union]
    ext p
    simp only [Finset.mem_filter, Finset.mem_sdiff, Finset.mem_union, not_or]
  · rw [Finset.filter_mem_eq_inter]

theorem inferAux_height (ai : AI) (sf mn : Finset Cell) (k fuel : ℕ) :
    (inferAux ai sf mn k fuel).height = ai.height
      ∧ (inferAux ai sf mn k fuel).width = ai.width := by
  induction fuel generalizing ai sf mn k with
  | zero => exact ⟨rfl, rfl⟩
  | succ fuel ih =>
      rw [inferAux]
      cases h : ai.knowledge.get? k with
      | none => exact ⟨rfl, rfl⟩
      | some s => simpa using ih ((ai.markSafeSet _).markMineSet _) _ _ (k + 1)

theorem pairStep_height (st : AI × List Sentence) (ij : ℕ × ℕ) :
    (pairStep st ij).1.height = st.1.height
      ∧ (pairStep st ij).1.width = st.1.width := by
  rw [pairStep]
  cases h1 : st.1.knowledge.get? ij.1 with
  | none => exact ⟨rfl, rfl⟩
  | some s1 =>
      cases h2 : st.1.knowledge.get? ij.2 with
      | none => exact ⟨rfl, rfl⟩
      | some s2 =>
          by_cases hc : s1 ≠ s2 ∧ s1.cells ⊆ s2.cells
          · simp only [if_pos hc]
            by_cases ho : (s1.cells ∩ s2.cells).Nonempty
            · simp only [if_pos ho]
              by_cases hz : s1.count = 0
              · simp only [if_pos hz]; exact ⟨by simp, by simp⟩
              · simp only [if_neg hz]
                by_cases hm : s1.count = s2.count
                    ∧ s2.count = ((s1.cells ∩ s2.cells).card : ℤ)
                · simp only [if_pos hm]; exact ⟨by simp, by simp⟩
                · simp only [if_neg hm]; exact ⟨by simp, by simp⟩
            · simp only [if_neg ho]; exact ⟨by simp, by simp⟩
          · simp only [if_neg hc]; exact ⟨by simp, by simp⟩

theorem foldl_pairStep_height (ps : List (ℕ × ℕ)) (st : AI × List Sentence) :
    (ps.foldl pairStep st).1.height = st.1.height
      ∧ (ps.foldl pairStep st).1.width = st.1.width := by
  induction ps generalizing st with
  | nil => exact ⟨rfl, rfl⟩
  | cons p t ih =>
      have h1 := pairStep_height st p
      have h2 := ih (pairStep st p)
      simp only [List.foldl_cons]
      exact ⟨h2.1.trans h1.1, h2.2.trans h1.2⟩

theorem add_knowledge_height (ai : AI) (cell : Cell) (count : ℤ) :
    (ai.add_knowledge cell count).height = ai.height
      ∧ (ai.add_knowledge cell count).width = ai.width := by
  unfold add_knowledge pairwisePass infer_safes_and_mines
  have h1 := inferAux_height (ai.afterProbe cell count) ∅ ∅ 0
    (ai.afterProbe cell count).knowledge.length
  set b := inferAux (ai.afterProbe cell count) ∅ ∅ 0
    (ai.afterProbe cell count).knowledge.length with hb
  have h2 := foldl_pairStep_height (pairIdx b.knowledge.length) (b, [])
  set st := (pairIdx b.knowledge.length).foldl pairStep (b, []) with hst
  have h3 := inferAux_height { st.1 with knowledge := st.1.knowledge ++ st.2 }
    ∅ ∅ 0 ({ st.1 with knowledge := st.1.knowledge ++ st.2 } : AI).knowledge.length
  constructor
  · rw [h3.1]
    show st.1.height = ai.height
    rw [h2.1]
    show b.height = ai.height
    rw [h1.1]
    rfl
  · rw [h3.2]
    show st.1.width = ai.width
    rw [h2.2]
    show b.width = ai.width
    rw [h1.2]
    rfl

end AI

/-! ### Soundness of the engine with respect to an actual mine set

The disjointness of `safes` and `mines` is not unconditional (see the C5
counterexample below); it holds when the reported counts are the true
neighbour-mine counts of a fixed mine set `M` and no probed cell is a
mine.  The following development proves that every engine operation
preserves truth relative to `M`. -/

/-- A sentence is true of the mine set `M` when exactly `count` of its
cells lie in `M`. -/
def Sentence.TrueFor (M : Finset Cell) (s : Sentence) : Prop :=
  ((s.cells ∩ M).card : ℤ) = s.count

/-- Engine soundness for the mine set `M`: every recorded mine is in `M`,
no recorded safe cell is in `M`, and every sentence is true of `M`. -/
def Sound (M : Finset Cell) (ai : AI) : Prop :=
  ai.mines ⊆ M ∧ (∀ c ∈ ai.safes, c ∉ M) ∧ ∀ s ∈ ai.knowledge, s.TrueFor M

namespace Sentence

theorem TrueFor.markSafeSet {M : Finset Cell} {s : Sentence}
    (h : s.TrueFor M) {S : Finset Cell} (hS : ∀ c ∈ S, c ∉ M) :
    (s.markSafeSet S).TrueFor M := by
  unfold Sentence.TrueFor Sentence.markSafeSet at *
  have : (s.cells \ S) ∩ M = s.cells ∩ M := by
    ext x
    simp only [Finset.mem_inter, Finset.mem_sdiff]
    constructor
    · rintro ⟨⟨hx, _⟩, hM⟩; exact ⟨hx, hM⟩
    · rintro ⟨hx, hM⟩; exact ⟨⟨hx, fun hxS => hS x hxS hM⟩, hM⟩
  rw [this, h]

theorem TrueFor.markMineSet {M : Finset Cell} {s : Sentence}
    (h : s.TrueFor M) {S : Finset Cell} (hS : S ⊆ M) :
    (s.markMineSet S).TrueFor M := by
  simp only [Sentence.TrueFor, Sentence.markMineSet] at h ⊢
  have h1 : (s.cells \ S) ∩ M = (s.cells ∩ M) \ S := by
    ext x
    simp only [Finset.mem_inter, Finset.mem_sdiff]
    tauto
  have h2 : (s.cells ∩ M) ∩ S = s.cells ∩ S := by
    ext x
    simp only [Finset.mem_inter]
    exact ⟨fun hx => ⟨hx.1.1, hx.2⟩, fun hx => ⟨⟨hx.1, hS hx.2⟩, hx.2⟩⟩
  have h3 := Finset.card_sdiff_add_card_inter (s.cells ∩ M) S
  rw [h2] at h3
  rw [h1, ← h]
  omega

theorem TrueFor.known_safes_not_mem {M : Finset Cell} {s : Sentence}
    (h : s.TrueFor M) : ∀ c ∈ s.known_safes, c ∉ M := by
  intro c hc
  unfold known_safes at hc
  by_cases h0 : s.count = 0
  · rw [if_pos h0] at hc
    unfold TrueFor at h
    rw [h0] at h
    have hempty : s.cells ∩ M = ∅ := Finset.card_eq_zero.mp (by exact_mod_cast h)
    intro hM
    have : c ∈ s.cells ∩ M := Finset.mem_inter.mpr ⟨hc, hM⟩
    rw [hempty] at this
    exact absurd this (Finset.not_mem_empty c)
  · rw [if_neg h0] at hc
    exact absurd hc (Finset.not_mem_empty c)

theorem TrueFor.known_mines_mem {M : Finset Cell} {s : Sentence}
    (h : s.TrueFor M) : ∀ c ∈ s.known_mines, c ∈ M := by
  intro c hc
  unfold known_mines at hc
  by_cases hf : (s.cells.card : ℤ) = s.count ∧ 0 < s.count
  · rw [if_pos hf] at hc
    unfold TrueFor at h
    have hcard : (s.cells ∩ M).card = s.cells.card := by
      have := h.trans hf.1.symm
      exact_mod_cast this
    have hsub : s.cells ∩ M = s.cells :=
      Finset.eq_of_subset_of_card_le Finset.inter_subset_left
        (le_of_eq hcard.symm)
    have : c ∈ s.cells ∩ M := hsub.symm ▸ hc
    exact (Finset.mem_inter.mp this).2
  · rw [if_neg hf] at hc
    exact absurd hc (Finset.not_mem_empty c)

/-- A single `mark_safe` is the set-level marking of a singleton. -/
theorem mark_safe_eq_markSafeSet (s : Sentence) (c : Cell) :
    s.mark_safe c = s.markSafeSet {c} := by
  rw [mark_safe_eq, markSafeSet, Finset.sdiff_singleton_eq_erase]

/-- A single `mark_mine` is the set-level marking of a singleton. -/
theorem mark_mine_eq_markMineSet (s : Sentence) (c : Cell) :
    s.mark_mine c = s.markMineSet {c} := by
  rw [mark_mine_eq, markMineSet, Finset.sdiff_singleton_eq_erase]
  by_cases h : c ∈ s.cells
  · have : s.cells ∩ {c} = {c} := by
      ext x
      simp only [Finset.mem_inter, Finset.mem_singleton]
      constructor
      · rintro ⟨_, rfl⟩; rfl
      · rintro rfl; exact ⟨h, rfl⟩
    rw [if_pos h, this]
    simp
  · have : s.cells ∩ {c} = ∅ := by
      ext x
      simp only [Finset.mem_inter, Finset.mem_singleton,
        Finset.not_mem_empty, iff_false, not_and]
      rintro hx rfl; exact h hx
    rw [if_neg h, this]
    simp

end Sentence

namespace AI

theorem sound_markSafeSet {M : Finset Cell} {ai : AI} (h : Sound M ai)
    {S : Finset Cell} (hS : ∀ c ∈ S, c ∉ M) : Sound M (ai.markSafeSet S) := by
  obtain ⟨hm, hs, hk⟩ := h
  refine ⟨hm, ?_, ?_⟩
  · intro c hc
    rcases Finset.mem_union.mp hc with hc | hc
    · exact hs c hc
    · exact hS c hc
  · intro s hs'
    rcases List.mem_map.mp hs' with ⟨t, ht, rfl⟩
    exact (hk t ht).markSafeSet hS

theorem sound_markMineSet {M : Finset Cell} {ai : AI} (h : Sound M ai)
    {S : Finset Cell} (hS : S ⊆ M) : Sound M (ai.markMineSet S) := by
  obtain ⟨hm, hs, hk⟩ := h
  refine ⟨?_, hs, ?_⟩
  · exact Finset.union_subset hm hS
  · intro s hs'
    rcases List.mem_map.mp hs' with ⟨t, ht, rfl⟩
    exact (hk t ht).markMineSet hS

theorem sound_mark_safe {M : Finset Cell} {ai : AI} (h : Sound M ai)
    {c : Cell} (hc : c ∉ M) : Sound M (ai.mark_safe c) := by
  obtain ⟨hm, hs, hk⟩ := h
  refine ⟨hm, ?_, ?_⟩
  · intro x hx
    rcases Finset.mem_insert.mp hx with rfl | hx
    · exact hc
    · exact hs x hx
  · intro s hs'
    rcases List.mem_map.mp hs' with ⟨t, ht, rfl⟩
    rw [Sentence.mark_safe_eq_markSafeSet]
    exact (hk t ht).markSafeSet (by
      intro x hx
      rw [Finset.mem_singleton] at hx
      subst hx
      exact hc)

theorem sound_mark_mine {M : Finset Cell} {ai : AI} (h : Sound M ai)
    {c : Cell} (hc : c ∈ M) : Sound M (ai.mark_mine c) := by
  obtain ⟨hm, hs, hk⟩ := h
  refine ⟨?_, hs, ?_⟩
  · intro x hx
    rcases Finset.mem_insert.mp hx with rfl | hx
    · exact hc
    · exact hm hx
  · intro s hs'
    rcases List.mem_map.mp hs' with ⟨t, ht, rfl⟩
    rw [Sentence.mark_mine_eq_markMineSet]
    exact (hk t ht).markMineSet (by
      intro x hx
      rw [Finset.mem_singleton] at hx
      subst hx
      exact hc)

theorem sound_inferAux {M : Finset Cell} {ai : AI} (h : Sound M ai)
    {sf mn : Finset Cell} (hsf : ∀ c ∈ sf, c ∉ M) (hmn : mn ⊆ M)
    (k fuel : ℕ) : Sound M (inferAux ai sf mn k fuel) := by
  induction fuel generalizing ai sf mn k with
  | zero => exact h
  | succ fuel ih =>
      rw [inferAux]
      cases hg : ai.knowledge.get? k with
      | none => exact h
      | some s =>
          have hsmem : s ∈ ai.knowledge := List.get?_mem hg
          have hst : s.TrueFor M := h.2.2 s hsmem
          have hsf' : ∀ c ∈ sf ∪ s.known_safes, c ∉ M := by
            intro c hc
            rcases Finset.mem_union.mp hc with hc | hc
            · exact hsf c hc
            · exact hst.known_safes_not_mem c hc
          have hmn' : mn ∪ s.known_mines ⊆ M := by
            intro c hc
            rcases Finset.mem_union.mp hc with hc | hc
            · exact hmn hc
            · exact hst.known_mines_mem c hc
          exact ih (sound_markMineSet (sound_markSafeSet h hsf') hmn')
            hsf' hmn' (k + 1)

theorem sound_infer {M : Finset Cell} {ai : AI} (h : Sound M ai) :
    Sound M ai.infer_safes_and_mines :=
  sound_inferAux h (by intro c hc; exact absurd hc (Finset.not_mem_empty c))
    (Finset.empty_subset M) 0 ai.knowledge.length

/-- The subset-rule candidate of a true pair of sentences is true. -/
theorem cand_trueFor {M : Finset Cell} {s1 s2 : Sentence}
    (h1 : s1.TrueFor M) (h2 : s2.TrueFor M) (hsub : s1.cells ⊆ s2.cells) :
    Sentence.TrueFor M ⟨s2.cells \ s1.cells, s2.count - s1.count⟩ := by
  unfold Sentence.TrueFor at *
  have hset : (s2.cells \ s1.cells) ∩ M = (s2.cells ∩ M) \ (s1.cells ∩ M) := by
    ext x
    simp only [Finset.mem_inter, Finset.mem_sdiff]
    tauto
  have hsub' : (s2.cells ∩ M) ∩ (s1.cells ∩ M) = s1.cells ∩ M := by
    ext x
    simp only [Finset.mem_inter]
    exact ⟨fun hx => hx.2, fun hx => ⟨⟨hsub hx.1, hx.2⟩, hx⟩⟩
  have hcard := Finset.card_sdiff_add_card_inter (s2.cells ∩ M) (s1.cells ∩ M)
  rw [hsub'] at hcard
  show (((s2.cells \ s1.cells) ∩ M).card : ℤ) = s2.count - s1.count
  rw [hset]
  omega

theorem sound_pairStep {M : Finset Cell} {st : AI × List Sentence}
    (h : Sound M st.1) (hkb : ∀ s ∈ st.2, s.TrueFor M) (ij : ℕ × ℕ) :
    Sound M (pairStep st ij).1 ∧ ∀ s ∈ (pairStep st ij).2, s.TrueFor M := by
  rw [pairStep]
  cases hg1 : st.1.knowledge.get? ij.1 with
  | none => exact ⟨h, hkb⟩
  | some s1 =>
      cases hg2 : st.1.knowledge.get? ij.2 with
      | none => exact ⟨h, hkb⟩
      | some s2 =>
          have hts1 : s1.TrueFor M := h.2.2 s1 (List.get?_mem hg1)
          have hts2 : s2.TrueFor M := h.2.2 s2 (List.get?_mem hg2)
          by_cases hc : s1 ≠ s2 ∧ s1.cells ⊆ s2.cells
          · simp only [if_pos hc]
            constructor
            · by_cases ho : (s1.cells ∩ s2.cells).Nonempty
              · simp only [if_pos ho]
                by_cases hz : s1.count = 0
                · simp only [if_pos hz]
                  refine sound_markSafeSet h ?_
                  intro c hco hcM
                  have hcs1 : c ∈ s1.cells := (Finset.mem_inter.mp hco).1
                  have : (s1.cells ∩ M).card = 0 := by
                    have := hts1
                    unfold Sentence.TrueFor at this
                    rw [hz] at this
                    exact_mod_cast this
                  have hempty : s1.cells ∩ M = ∅ := Finset.card_eq_zero.mp this
                  have : c ∈ s1.cells ∩ M := Finset.mem_inter.mpr ⟨hcs1, hcM⟩
                  rw [hempty] at this
                  exact absurd this (Finset.not_mem_empty c)
                · simp only [if_neg hz]
                  by_cases hm : s1.count = s2.count
                      ∧ s2.count = ((s1.cells ∩ s2.cells).card : ℤ)
                  · simp only [if_pos hm]
                    refine sound_markMineSet h ?_
                    have hov : s1.cells ∩ s2.cells = s1.cells :=
                      Finset.inter_eq_left.mpr hc.2
                    have hcard : (s1.cells ∩ M).card = s1.cells.card := by
                      have h' := hts1
                      unfold Sentence.TrueFor at h'
                      have : (s1.cells.card : ℤ) = (s1.cells ∩ M).card := by
                        rw [h', hm.1, hm.2, hov]
                      exact_mod_cast this.symm
                    have hfull : s1.cells ∩ M = s1.cells :=
                      Finset.eq_of_subset_of_card_le Finset.inter_subset_left
                        (le_of_eq hcard.symm)
                    rw [hov]
                    intro x hx
                    have : x ∈ s1.cells ∩ M := hfull.symm ▸ hx
                    exact (Finset.mem_inter.mp this).2
                  · simp only [if_neg hm]
                    exact h
              · simp only [if_neg ho]
                exact h
            · intro s hs
              by_cases hnew : (⟨s2.cells \ s1.cells, s2.count - s1.count⟩
                    : Sentence) ∉ st.1.knowledge
                  ∧ (⟨s2.cells \ s1.cells, s2.count - s1.count⟩
                    : Sentence) ∉ st.2
              · rw [if_pos hnew] at hs
                rcases List.mem_append.mp hs with hs | hs
                · exact hkb s hs
                · rw [List.mem_singleton] at hs
                  subst hs
                  exact cand_trueFor hts1 hts2 hc.2
              · rw [if_neg hnew] at hs
                exact hkb s hs
          · simp only [if_neg hc]
            exact ⟨h, hkb⟩

theorem sound_foldl_pairStep {M : Finset Cell} (ps : List (ℕ × ℕ)) :
    ∀ st : AI × List Sentence, Sound M st.1 →
      (∀ s ∈ st.2, s.TrueFor M) →
      Sound M (ps.foldl pairStep st).1
        ∧ ∀ s ∈ (ps.foldl pairStep st).2, s.TrueFor M := by
  induction ps with
  | nil => exact fun st h hkb => ⟨h, hkb⟩
  | cons p t ih =>
      intro st h hkb
      have hstep := sound_pairStep h hkb p
      exact ih (pairStep st p) hstep.1 hstep.2

theorem sound_pairwisePass {M : Finset Cell} {ai : AI} (h : Sound M ai) :
    Sound M ai.pairwisePass := by
  unfold pairwisePass
  have hfold := sound_foldl_pairStep (pairIdx ai.knowledge.length)
    (ai, []) h (by intro s hs; exact absurd hs (List.not_mem_nil s))
  obtain ⟨⟨hm, hs, hk⟩, hkb⟩ := hfold
  refine ⟨hm, hs, ?_⟩
  intro s hs'
  rcases List.mem_append.mp hs' with hs' | hs'
  · exact hk s hs'
  · exact hkb s hs'

theorem sound_afterProbe {M : Finset Cell} {ai : AI} {cell : Cell}
    {count : ℤ} (h : Sound M ai) (hcell : cell ∉ M)
    (hcount : count = ((mooreNbhd ai.height ai.width cell ∩ M).card : ℤ)) :
    Sound M (ai.afterProbe cell count) := by
  unfold afterProbe
  have h1 : Sound M { ai with moves_made := insert cell ai.moves_made } := h
  have h2 : Sound M (({ ai with
      moves_made := insert cell ai.moves_made } : AI).mark_safe cell) :=
    sound_mark_safe h1 hcell
  set ai2 := ({ ai with
      moves_made := insert cell ai.moves_made } : AI).mark_safe cell with hai2
  obtain ⟨hm2, hs2, hk2⟩ := h2
  refine ⟨hm2, hs2, ?_⟩
  intro s hs'
  rcases List.mem_append.mp hs' with hs' | hs'
  · exact hk2 s hs'
  · rw [List.mem_singleton] at hs'
    subst hs'
    unfold probeSentence
    rw [closestAndCount_eq]
    have hh2 : ai2.height = ai.height := rfl
    have hw2 : ai2.width = ai.width := rfl
    have hsafes2 : ai2.safes = insert cell ai.safes := rfl
    have hmines2 : ai2.mines = ai.mines := rfl
    unfold Sentence.TrueFor
    rw [hh2, hw2, hsafes2, hmines2]
    set moo := mooreNbhd ai.height ai.width cell with hmoo
    have hset : (moo \ (insert cell ai.safes ∪ ai.mines)) ∩ M
        = (moo ∩ M) \ ai.mines := by
      ext x
      simp only [Finset.mem_inter, Finset.mem_sdiff, Finset.mem_union,
        Finset.mem_insert, not_or]
      constructor
      · rintro ⟨⟨hx, ⟨_, _⟩, hnm⟩, hM⟩
        exact ⟨⟨hx, hM⟩, hnm⟩
      · rintro ⟨⟨hx, hM⟩, hnm⟩
        refine ⟨⟨hx, ⟨?_, ?_⟩, hnm⟩, hM⟩
        · rintro rfl; exact hcell hM
        · intro hxs; exact h.2.1 x hxs hM
    have hmsub : (moo ∩ M) ∩ ai.mines = moo ∩ ai.mines := by
      ext x
      simp only [Finset.mem_inter]
      exact ⟨fun hx => ⟨hx.1.1, hx.2⟩, fun hx => ⟨⟨hx.1, h.1 hx.2⟩, hx.2⟩⟩
    have hcard := Finset.card_sdiff_add_card_inter (moo ∩ M) ai.mines
    rw [hmsub] at hcard
    show (((moo \ (insert cell ai.safes ∪ ai.mines)) ∩ M).card : ℤ)
      = count - ((moo ∩ ai.mines).card : ℤ)
    rw [hset, hcount]
    omega

theorem sound_add_knowledge {M : Finset Cell} {ai : AI} {cell : Cell}
    {count : ℤ} (h : Sound M ai) (hcell : cell ∉ M)
    (hcount : count = ((mooreNbhd ai.height ai.width cell ∩ M).card : ℤ)) :
    Sound M (ai.add_knowledge cell count) := by
  unfold add_knowledge
  exact sound_infer (sound_pairwisePass
    (sound_infer (sound_afterProbe h hcell hcount)))

theorem sound_init (M : Finset Cell) (h w : ℤ) : Sound M (init h w) := by
  refine ⟨Finset.empty_subset M, ?_, ?_⟩
  · intro c hc
    exact absurd hc (Finset.not_mem_empty c)
  · intro s hs
    exact absurd hs (List.not_mem_nil s)

/-- Folding a list of honest probe calls from any sound state stays sound;
board dimensions never change along the way. -/
theorem sound_foldl_calls {M : Finset Cell} (h w : ℤ) :
    ∀ calls : List (Cell × ℤ),
      (∀ p ∈ calls, p.1 ∉ M ∧ p.2 = ((mooreNbhd h w p.1 ∩ M).card : ℤ)) →
      ∀ ai : AI, Sound M ai → ai.height = h → ai.width = w →
        Sound M (calls.foldl (fun a p => a.add_knowledge p.1 p.2) ai) := by
  intro calls
  induction calls with
  | nil =>
      intro _ ai hai _ _
      exact hai
  | cons p t ih =>
      intro hcalls ai hai hh hw
      obtain ⟨hp1, hp2⟩ := hcalls p (List.mem_cons_self p t)
      have hp2' : p.2
          = ((mooreNbhd ai.height ai.width p.1 ∩ M).card : ℤ) := by
        rw [hh, hw]; exact hp2
      have hstep : Sound M (ai.add_knowledge p.1 p.2) :=
        sound_add_knowledge hai hp1 hp2'
      have hd := add_knowledge_height ai p.1 p.2
      exact ih (fun q hq => hcalls q (List.mem_cons_of_mem p hq))
        _ hstep (hd.1.trans hh) (hd.2.trans hw)

/-- A sound state has disjoint `safes` and `mines`. -/
theorem sound_disjoint {M : Finset Cell} {ai : AI} (h : Sound M ai) :
    ai.safes ∩ ai.mines = ∅ := by
  ext x
  simp only [Finset.mem_inter, Finset.not_mem_empty, iff_false, not_and]
  intro hxs hxm
  exact h.2.1 x hxs (h.1 hxm)

/-- The propagation invariant of the spec: no sentence in `knowledge`
references a cell already recorded in `safes` or `mines`. -/
def Propagated (ai : AI) : Prop :=
  ∀ s ∈ ai.knowledge, ∀ c ∈ s.cells, c ∉ ai.safes ∧ c ∉ ai.mines

instance (ai : AI) : Decidable (Propagated ai) :=
  List.decidableBAll _ ai.knowledge

theorem propagated_mark_mine {ai : AI} (h : Propagated ai) (c : Cell) :
    Propagated (ai.mark_mine c) := by
  intro s hs x hx
  rcases List.mem_map.mp hs with ⟨t, ht, rfl⟩
  rw [Sentence.mark_mine_eq] at hx
  have hx' : x ∈ t.cells.erase c := hx
  have hxc : x ≠ c := (Finset.mem_erase.mp hx').1
  have hxt : x ∈ t.cells := (Finset.mem_erase.mp hx').2
  obtain ⟨hxs, hxm⟩ := h t ht x hxt
  refine ⟨hxs, ?_⟩
  rw [mark_mine_mines, Finset.mem_insert]
  rintro (rfl | hx'')
  · exact hxc rfl
  · exact hxm hx''

theorem propagated_mark_safe {ai : AI} (h : Propagated ai) (c : Cell) :
    Propagated (ai.mark_safe c) := by
  intro s hs x hx
  rcases List.mem_map.mp hs with ⟨t, ht, rfl⟩
  rw [Sentence.mark_safe_eq] at hx
  have hx' : x ∈ t.cells.erase c := hx
  have hxc : x ≠ c := (Finset.mem_erase.mp hx').1
  have hxt : x ∈ t.cells := (Finset.mem_erase.mp hx').2
  obtain ⟨hxs, hxm⟩ := h t ht x hxt
  refine ⟨?_, hxm⟩
  rw [mark_safe_safes, Finset.mem_insert]
  rintro (rfl | hx'')
  · exact hxc rfl
  · exact hxs hx''

/-! ### Characterisation of one step of the pairwise scan -/

/-- For a pair whose first sentence is not a distinct subset of the second,
the scan step does nothing at all: no candidate is recorded and no cell is
marked. -/
theorem pairStep_no_fire (st : AI × List Sentence) (i j : ℕ)
    (s1 s2 : Sentence) (hg1 : st.1.knowledge.get? i = some s1)
    (hg2 : st.1.knowledge.get? j = some s2)
    (h : ¬(s1 ≠ s2 ∧ s1.cells ⊆ s2.cells)) :
    pairStep st (i, j) = st := by
  rw [pairStep]
  simp only [hg1, hg2]
  rw [if_neg h]

/-- For a distinct subset pair, the candidate `(B.cells − A.cells,
B.count − A.count)` is appended to the pass's `new_KB` accumulator exactly
when it is not value-equal to a sentence of the current knowledge list nor
to an already-recorded candidate. -/
theorem pairStep_cand (st : AI × List Sentence) (i j : ℕ)
    (s1 s2 : Sentence) (hg1 : st.1.knowledge.get? i = some s1)
    (hg2 : st.1.knowledge.get? j = some s2)
    (hne : s1 ≠ s2) (hsub : s1.cells ⊆ s2.cells) :
    (pairStep st (i, j)).2 =
      if (⟨s2.cells \ s1.cells, s2.count - s1.count⟩ : Sentence)
            ∉ st.1.knowledge
          ∧ (⟨s2.cells \ s1.cells, s2.count - s1.count⟩ : Sentence) ∉ st.2
        then st.2 ++ [⟨s2.cells \ s1.cells, s2.count - s1.count⟩]
        else st.2 := by
  rw [pairStep]
  simp only [hg1, hg2]
  rw [if_pos ⟨hne, hsub⟩]

/-- For a distinct subset pair with `A.count = 0` and non-empty overlap,
the scan step marks every overlap cell safe (and touches no other engine
set). -/
theorem pairStep_overlap_safe (st : AI × List Sentence) (i j : ℕ)
    (s1 s2 : Sentence) (hg1 : st.1.knowledge.get? i = some s1)
    (hg2 : st.1.knowledge.get? j = some s2)
    (hne : s1 ≠ s2) (hsub : s1.cells ⊆ s2.cells)
    (hov : (s1.cells ∩ s2.cells).Nonempty) (hz : s1.count = 0) :
    (pairStep st (i, j)).1 = st.1.markSafeSet (s1.cells ∩ s2.cells) := by
  rw [pairStep]
  simp only [hg1, hg2]
  rw [if_pos ⟨hne, hsub⟩]
  simp only [if_pos hov, if_pos hz]

/-- For a distinct subset pair with `A.count = B.count = |overlap|` and a
non-zero count, the scan step marks every overlap cell as a mine. -/
theorem pairStep_overlap_mine (st : AI × List Sentence) (i j : ℕ)
    (s1 s2 : Sentence) (hg1 : st.1.knowledge.get? i = some s1)
    (hg2 : st.1.knowledge.get? j = some s2)
    (hne : s1 ≠ s2) (hsub : s1.cells ⊆ s2.cells)
    (hov : (s1.cells ∩ s2.cells).Nonempty) (hz : s1.count ≠ 0)
    (hm : s1.count = s2.count
      ∧ s2.count = ((s1.cells ∩ s2.cells).card : ℤ)) :
    (pairStep st (i, j)).1 = st.1.markMineSet (s1.cells ∩ s2.cells) := by
  rw [pairStep]
  simp only [hg1, hg2]
  rw [if_pos ⟨hne, hsub⟩]
  simp only [if_pos hov, if_neg hz, if_pos hm]

/-- A subset pair has overlap equal to the whole of the smaller cell set. -/
theorem overlap_of_subset {s1 s2 : Sentence} (hsub : s1.cells ⊆ s2.cells) :
    s1.cells ∩ s2.cells = s1.cells :=
  Finset.inter_eq_left.mpr hsub

/-- The `new_KB` accumulator only ever grows during the scan: whatever was
recorded when a pair was visited is still present, in order, when the scan
finishes and the accumulated list is appended to `knowledge`. -/
theorem foldl_pairStep_kb_extends (ps : List (ℕ × ℕ))
    (st : AI × List Sentence) :
    ∃ rest, (ps.foldl pairStep st).2 = st.2 ++ rest := by
  induction ps generalizing st with
  | nil => exact ⟨[], by simp⟩
  | cons p t ih =>
      have hstep : ∃ r1, (pairStep st p).2 = st.2 ++ r1 := by
        rw [pairStep]
        cases hg1 : st.1.knowledge.get? p.1 with
        | none => exact ⟨[], by simp⟩
        | some s1 =>
            cases hg2 : st.1.knowledge.get? p.2 with
            | none => exact ⟨[], by simp⟩
            | some s2 =>
                by_cases hc : s1 ≠ s2 ∧ s1.cells ⊆ s2.cells
                · simp only [if_pos hc]
                  by_cases hnew : (⟨s2.cells \ s1.cells, s2.count - s1.count⟩
                        : Sentence) ∉ st.1.knowledge
                      ∧ (⟨s2.cells \ s1.cells, s2.count - s1.count⟩
                        : Sentence) ∉ st.2
                  · exact ⟨[⟨s2.cells \ s1.cells, s2.count - s1.count⟩],
                      by rw [if_pos hnew]⟩
                  · exact ⟨[], by rw [if_neg hnew]; simp⟩
                · simp only [if_neg hc]
                  exact ⟨[], by simp⟩
      obtain ⟨r1, hr1⟩ := hstep
      obtain ⟨r2, hr2⟩ := ih (pairStep st p)
      exact ⟨r1 ++ r2, by rw [List.foldl_cons, hr2, hr1, List.append_assoc]⟩

/-- The pairwise phase appends the accumulated `new_KB` to the scanned
knowledge list. -/
theorem pairwisePass_knowledge (ai : AI) :
    ai.pairwisePass.knowledge =
      ((pairIdx ai.knowledge.length).foldl pairStep (ai, [])).1.knowledge
        ++ ((pairIdx ai.knowledge.length).foldl pairStep (ai, [])).2 := rfl

end AI

/-! ### Concrete engine runs used as counterexamples and witnesses

Every state below is built from a fresh engine by public operations
(`mark_safe` / `mark_mine` / `add_knowledge`) or, for the pairwise-scan
claims, assembled directly as the knowledge collection the claim speaks
about. -/

/-- Two overlapping sentences with equal counts and no subset relation,
used against C1: `A = {(0,0),(0,1)} = 1`, `B = {(0,1),(0,2)} = 1`. -/
def c1state : AI :=
  ⟨8, 8, ∅, ∅, ∅,
    [⟨{((0 : ℤ), (0 : ℤ)), (0, 1)}, 1⟩, ⟨{((0 : ℤ), (1 : ℤ)), (0, 2)}, 1⟩]⟩

/-- All 8×8 board cells except `(0,0)`, `(0,1)`, `(1,0)`, `(1,1)`. -/
def c2mines : List Cell :=
  ((List.range 8).flatMap
      (fun i => (List.range 8).map (fun j => ((i : ℤ), (j : ℤ))))).filter
    (fun p => decide
      (p ∉ ([((0 : ℤ), (0 : ℤ)), (0, 1), (1, 0), (1, 1)] : List Cell)))

/-- An 8×8 engine after 60 public `mark_mine` calls and one probe of
`(0,0)` reporting one adjacent mine: three cells remain neither played nor
mined, but all of them sit in a count-1 sentence. -/
def c2trace : AI :=
  (c2mines.foldl AI.mark_mine (AI.init 8 8)).add_knowledge (0, 0) 1

/-- The knowledge base of the spec's subset-inference scenario:
`A = {(0,0),(0,1),(0,2)} = 1` and `B = {(0,0),(0,1)} = 1`. -/
def c3ai : AI :=
  ⟨8, 8, ∅, ∅, ∅,
    [⟨{((0 : ℤ), (0 : ℤ)), (0, 1), (0, 2)}, 1⟩,
      ⟨{((0 : ℤ), (0 : ℤ)), (0, 1)}, 1⟩]⟩

/-- Setup marks for the C4 run: these cells are marked safe so that the
four probes below produce exactly the sentences of the counterexample. -/
def c4premarks : List Cell :=
  [((1 : ℤ), (1 : ℤ)), (1, 3), (2, 1), (2, 3), (3, 1), (3, 2), (1, 5),
    (2, 5), (3, 4), (3, 5), (0, 4), (4, 3), (4, 5), (5, 3), (5, 4), (5, 5)]

/-- An 8×8 engine run of four probes after the setup marks.  During the
last `add_knowledge` the pairwise scan records the candidate
`{(0,2),(0,3),(1,4)} = 1` into `new_KB` and only afterwards marks `(1,4)`
safe; the candidate is appended with the resolved cell still inside it. -/
def c4trace : AI :=
  ((((c4premarks.foldl AI.mark_safe (AI.init 8 8)).add_knowledge
        (2, 2) 1).add_knowledge (2, 4) 1).add_knowledge
      (1, 3) 1).add_knowledge (4, 4) 1

/-- A fresh 8×8 engine probed at `(0,0)` with count 3 (all three
neighbours are mines), then at `(0,1)` — a deduced mine — with its true
count 2. -/
def c5trace : AI :=
  ((AI.init 8 8).add_knowledge (0, 0) 3).add_knowledge (0, 1) 2

/-! ### The claims -/

/-- C1, counterexample.  The two sentences of `c1state` are distinct, have
the non-empty overlap `{(0,1)}`, and both counts equal `1 = |overlap|`,
yet neither is a subset of the other, and after a full `add_knowledge`
call (probing the far-away cell `(5,5)`, which leaves both sentences
untouched during the pairwise scan) the overlap cell has not been marked a
mine: the overlap rules do not fire for non-subset pairs. -/
theorem C1_counterexample :
    (⟨{((0 : ℤ), (0 : ℤ)), (0, 1)}, 1⟩ : Sentence) ∈ c1state.knowledge
    ∧ (⟨{((0 : ℤ), (1 : ℤ)), (0, 2)}, 1⟩ : Sentence) ∈ c1state.knowledge
    ∧ (⟨{((0 : ℤ), (0 : ℤ)), (0, 1)}, 1⟩ : Sentence)
        ≠ ⟨{((0 : ℤ), (1 : ℤ)), (0, 2)}, 1⟩
    ∧ (({((0 : ℤ), (0 : ℤ)), (0, 1)} : Finset Cell)
        ∩ {((0 : ℤ), (1 : ℤ)), (0, 2)}).Nonempty
    ∧ (1 : ℤ) = ((({((0 : ℤ), (0 : ℤ)), (0, 1)} : Finset Cell)
        ∩ {((0 : ℤ), (1 : ℤ)), (0, 2)}).card : ℤ)
    ∧ ¬ ({((0 : ℤ), (0 : ℤ)), (0, 1)} : Finset Cell)
        ⊆ {((0 : ℤ), (1 : ℤ)), (0, 2)}
    ∧ ¬ ({((0 : ℤ), (1 : ℤ)), (0, 2)} : Finset Cell)
        ⊆ {((0 : ℤ), (0 : ℤ)), (0, 1)}
    ∧ ((0 : ℤ), (1 : ℤ)) ∉ (c1state.add_knowledge (5, 5) 0).mines := by
  decide

/-- C1, amended.  During the pairwise pass the overlap rules fire only for
an ordered pair of value-distinct sentences whose first cell set is a
subset of the second (the overlap then being the whole first cell set):
for such a pair, if `A.count = 0` every overlap cell is marked safe
immediately, and else if `A.count = B.count = |overlap|` every overlap
cell is marked a mine immediately; for every other pair the scan step
changes nothing at all. -/
theorem C1_overlap_rules_subset_only (st : AI × List Sentence) (i j : ℕ)
    (s1 s2 : Sentence) (hg1 : st.1.knowledge.get? i = some s1)
    (hg2 : st.1.knowledge.get? j = some s2) :
    (¬(s1 ≠ s2 ∧ s1.cells ⊆ s2.cells) → AI.pairStep st (i, j) = st)
    ∧ (s1 ≠ s2 → s1.cells ⊆ s2.cells → (s1.cells ∩ s2.cells).Nonempty →
        s1.count = 0 →
        (AI.pairStep st (i, j)).1.safes = st.1.safes ∪ s1.cells)
    ∧ (s1 ≠ s2 → s1.cells ⊆ s2.cells → (s1.cells ∩ s2.cells).Nonempty →
        s1.count ≠ 0 → s1.count = s2.count →
        s2.count = ((s1.cells ∩ s2.cells).card : ℤ) →
        (AI.pairStep st (i, j)).1.mines = st.1.mines ∪ s1.cells) := by
  refine ⟨fun h => AI.pairStep_no_fire st i j s1 s2 hg1 hg2 h, ?_, ?_⟩
  · intro hne hsub hov hz
    rw [AI.pairStep_overlap_safe st i j s1 s2 hg1 hg2 hne hsub hov hz,
      AI.markSafeSet_safes, AI.overlap_of_subset hsub]
  · intro hne hsub hov hz h1 h2
    rw [AI.pairStep_overlap_mine st i j s1 s2 hg1 hg2 hne hsub hov hz ⟨h1, h2⟩,
      AI.markMineSet_mines, AI.overlap_of_subset hsub]

/-- C1, witness for the amended theorem: a count-0 sentence that is a
subset of another marks its own cells safe during the scan step. -/
theorem C1_witness :
    (AI.pairStep
        ((⟨2, 2, ∅, ∅, ∅,
          [⟨{((0 : ℤ), (0 : ℤ))}, 0⟩, ⟨{((0 : ℤ), (0 : ℤ)), (0, 1)}, 1⟩]⟩ : AI),
          ([] : List Sentence)) (0, 1)).1.safes
      = ∅ ∪ {((0 : ℤ), (0 : ℤ))} :=
  (C1_overlap_rules_subset_only
      ((⟨2, 2, ∅, ∅, ∅,
        [⟨{((0 : ℤ), (0 : ℤ))}, 0⟩, ⟨{((0 : ℤ), (0 : ℤ)), (0, 1)}, 1⟩]⟩ : AI),
        ([] : List Sentence)) 0 1
      ⟨{((0 : ℤ), (0 : ℤ))}, 0⟩ ⟨{((0 : ℤ), (0 : ℤ)), (0, 1)}, 1⟩
      rfl rfl).2.1 (by decide) (by decide) (by decide) rfl

set_option maxRecDepth 200000 in
/-- C2, evaluation at the failing input.  On the 8×8 engine `c2trace`,
built from a fresh engine by public operations only, `make_random_move`
returns no move although `|mines| + |moves_made| = 61 < 64` and the cell
`(0,1)` is on the board, unplayed and not a recorded mine — contradicting
the method's own docstring, which promises a choice among exactly such
cells. -/
theorem C2_failing_eval :
    (c2trace.make_random_move).1 = none
    ∧ (c2trace.mines.card : ℤ) + (c2trace.moves_made.card : ℤ) = 61
    ∧ c2trace.height = 8 ∧ c2trace.width = 8
    ∧ ((0 : ℤ), (1 : ℤ)) ∈ c2trace.allCells
    ∧ ((0 : ℤ), (1 : ℤ)) ∉ c2trace.moves_made
    ∧ ((0 : ℤ), (1 : ℤ)) ∉ c2trace.mines := by
  decide

/-- C3.  For every ordered pair of value-distinct sentences of the current
knowledge collection with `A.cells ⊆ B.cells`, the scan step derives the
candidate `(B.cells − A.cells, B.count − A.count)` and records it exactly
when it is not value-equal to a sentence of the current knowledge list nor
to a candidate recorded earlier in the same pass; recorded candidates are
only ever appended to the pass accumulator, and the whole accumulator is
appended to `knowledge` after the full scan. -/
theorem C3_subset_rule (st : AI × List Sentence) (i j : ℕ)
    (s1 s2 : Sentence) (hg1 : st.1.knowledge.get? i = some s1)
    (hg2 : st.1.knowledge.get? j = some s2)
    (hne : s1 ≠ s2) (hsub : s1.cells ⊆ s2.cells) :
    ((⟨s2.cells \ s1.cells, s2.count - s1.count⟩ : Sentence)
          ∉ st.1.knowledge
        ∧ (⟨s2.cells \ s1.cells, s2.count - s1.count⟩ : Sentence) ∉ st.2 →
        (AI.pairStep st (i, j)).2
          = st.2 ++ [⟨s2.cells \ s1.cells, s2.count - s1.count⟩])
    ∧ ((⟨s2.cells \ s1.cells, s2.count - s1.count⟩ : Sentence)
          ∈ st.1.knowledge
        ∨ (⟨s2.cells \ s1.cells, s2.count - s1.count⟩ : Sentence) ∈ st.2 →
        (AI.pairStep st (i, j)).2 = st.2)
    ∧ (∀ (ps : List (ℕ × ℕ)) (st' : AI × List Sentence),
        ∃ rest, (ps.foldl AI.pairStep st').2 = st'.2 ++ rest)
    ∧ (∀ b : AI, b.pairwisePass.knowledge =
        ((AI.pairIdx b.knowledge.length).foldl AI.pairStep (b, [])).1.knowledge
          ++ ((AI.pairIdx b.knowledge.length).foldl AI.pairStep (b, [])).2) := by
  refine ⟨?_, ?_, AI.foldl_pairStep_kb_extends, AI.pairwisePass_knowledge⟩
  · intro h
    rw [AI.pairStep_cand st i j s1 s2 hg1 hg2 hne hsub, if_pos h]
  · intro h
    rw [AI.pairStep_cand st i j s1 s2 hg1 hg2 hne hsub, if_neg (by tauto)]

/-- C3, witness: in the spec's scenario the pair `(B, A)` with
`B = {(0,0),(0,1)} = 1 ⊆ A = {(0,0),(0,1),(0,2)} = 1` records exactly the
candidate `{(0,2)} = 0`, and a full `add_knowledge` call on that knowledge
base ends with `(0,2)` marked safe. -/
theorem C3_witness :
    (AI.pairStep (c3ai, ([] : List Sentence)) (1, 0)).2
        = [] ++ [⟨{((0 : ℤ), (2 : ℤ))}, 0⟩]
    ∧ ((0 : ℤ), (2 : ℤ)) ∈ (c3ai.add_knowledge (5, 5) 0).safes :=
  ⟨(C3_subset_rule (c3ai, ([] : List Sentence)) 1 0
      ⟨{((0 : ℤ), (0 : ℤ)), (0, 1)}, 1⟩
      ⟨{((0 : ℤ), (0 : ℤ)), (0, 1), (0, 2)}, 1⟩
      rfl rfl (by decide) (by decide)).1 ⟨by decide, by decide⟩,
    by decide⟩

set_option maxRecDepth 200000 in
/-- C4, counterexample.  After the four public `add_knowledge` calls of
`c4trace`, the knowledge list contains a sentence that still references
`(1,4)` although `(1,4)` is in the engine's `safes` set: the candidate
sentences accumulated in `new_KB` are not updated by marks that fire later
in the same pairwise scan. -/
theorem C4_counterexample :
    (∃ s ∈ c4trace.knowledge, ((1 : ℤ), (4 : ℤ)) ∈ s.cells)
    ∧ ((1 : ℤ), (4 : ℤ)) ∈ c4trace.safes := by
  decide

/-- C4, amended.  The engine-level `mark_mine` and `mark_safe` operations
do preserve the propagation invariant: if no sentence referenced a
resolved cell before the call, none does afterwards (the newly marked cell
is removed from every sentence, and previously resolved cells stay
removed).  `add_knowledge` does not preserve the invariant (see the
counterexample). -/
theorem C4_marks_preserve_propagation (ai : AI) (c : Cell)
    (h : AI.Propagated ai) :
    AI.Propagated (ai.mark_mine c) ∧ AI.Propagated (ai.mark_safe c) :=
  ⟨AI.propagated_mark_mine h c, AI.propagated_mark_safe h c⟩

/-- C4, witness for the amended theorem at a concrete propagated state. -/
theorem C4_witness :
    AI.Propagated ((⟨2, 2, ∅, ∅, {((1 : ℤ), (1 : ℤ))},
        [⟨{((0 : ℤ), (0 : ℤ))}, 1⟩]⟩ : AI).mark_mine (0, 1))
    ∧ AI.Propagated ((⟨2, 2, ∅, ∅, {((1 : ℤ), (1 : ℤ))},
        [⟨{((0 : ℤ), (0 : ℤ))}, 1⟩]⟩ : AI).mark_safe (0, 1)) :=
  C4_marks_preserve_propagation
    (⟨2, 2, ∅, ∅, {((1 : ℤ), (1 : ℤ))}, [⟨{((0 : ℤ), (0 : ℤ))}, 1⟩]⟩ : AI)
    (0, 1) (by decide)

/-- C5, counterexample.  Two `add_knowledge` calls on a fresh 8×8 engine —
probing `(0,0)` with count 3, which resolves all three neighbours as
mines, then probing the deduced mine `(0,1)` with its true count — leave
`(0,1)` in both `safes` and `mines`: the disjointness invariant does not
hold for arbitrary call sequences. -/
theorem C5_counterexample :
    ((0 : ℤ), (1 : ℤ)) ∈ c5trace.safes ∩ c5trace.mines := by
  decide

/-- C5, amended.  If every call of the sequence probes a cell that is not
a mine of a fixed mine set `M` and reports the true number of `M`-mines in
its Moore neighbourhood, then after any such sequence of `add_knowledge`
calls on a fresh engine the `safes` and `mines` sets are disjoint. -/
theorem C5_sound_runs_disjoint (h w : ℤ) (M : Finset Cell)
    (calls : List (Cell × ℤ))
    (hcalls : ∀ p ∈ calls, p.1 ∉ M
      ∧ p.2 = ((AI.mooreNbhd h w p.1 ∩ M).card : ℤ)) :
    (calls.foldl (fun a p => a.add_knowledge p.1 p.2) (AI.init h w)).safes
      ∩ (calls.foldl (fun a p => a.add_knowledge p.1 p.2) (AI.init h w)).mines
      = ∅ :=
  AI.sound_disjoint
    (AI.sound_foldl_calls h w calls hcalls (AI.init h w)
      (AI.sound_init M h w) rfl rfl)

/-- C5, witness: a 2×2 board with one mine at `(0,1)`, probed honestly at
`(0,0)`. -/
theorem C5_witness :
    (([(((0 : ℤ), (0 : ℤ)), 1)] : List (Cell × ℤ)).foldl
        (fun a p => a.add_knowledge p.1 p.2) (AI.init 2 2)).safes
      ∩ (([(((0 : ℤ), (0 : ℤ)), 1)] : List (Cell × ℤ)).foldl
        (fun a p => a.add_knowledge p.1 p.2) (AI.init 2 2)).mines = ∅ :=
  C5_sound_runs_disjoint 2 2 {((0 : ℤ), (1 : ℤ))}
    [(((0 : ℤ), (0 : ℤ)), 1)] (by decide)

/-- C6, counterexample.  On the sentence `{(0,0)} = 1`, `mark_safe` then
`mark_mine` of `(0,0)` differs from `mark_mine` then `mark_safe` (the
latter equalling `mark_mine` alone): the counts disagree by one, so the
two orders are not interchangeable. -/
theorem C6_counterexample :
    ¬ ((((⟨{((0 : ℤ), (0 : ℤ))}, 1⟩ : Sentence).mark_safe (0, 0)).mark_mine
          (0, 0))
        = (((⟨{((0 : ℤ), (0 : ℤ))}, 1⟩ : Sentence).mark_mine (0, 0)).mark_safe
          (0, 0))) := by
  decide

/-- C6, amended.  `mark_mine` then `mark_safe` on the same cell is exactly
`mark_mine` alone (the second call is a no-op); in the other order the
final cell set is the same, but the count is left at its original value,
so the two orders agree exactly when the marked cell was absent. -/
theorem C6_mark_orders (s : Sentence) (c : Cell) :
    (s.mark_mine c).mark_safe c = s.mark_mine c
    ∧ ((s.mark_safe c).mark_mine c).cells = (s.mark_mine c).cells
    ∧ ((s.mark_safe c).mark_mine c).count = s.count := by
  have h1 : (s.mark_mine c).cells = s.cells.erase c := by
    rw [Sentence.mark_mine_eq]
  have h2 : (s.mark_safe c).mark_mine c = s.mark_safe c := by
    rw [Sentence.mark_safe_eq]
    unfold Sentence.mark_mine
    rw [if_neg]
    exact Finset.not_mem_erase c s.cells
  have h3 : (s.mark_mine c).mark_safe c = s.mark_mine c := by
    unfold Sentence.mark_safe
    rw [if_neg]
    rw [h1]
    exact Finset.not_mem_erase c s.cells
  refine ⟨h3, ?_, ?_⟩
  · rw [h2, Sentence.mark_safe_eq, h1]
  · rw [h2, Sentence.mark_safe_eq]

/-- C7.  `add_knowledge` appends exactly one sentence built from the
probe, even when its cell set is empty: its cells are the Moore
neighbourhood of the probed cell minus the cells already recorded safe or
mine (after the probed cell itself has been recorded as played and safe),
and its count is the reported count decremented once per excluded
neighbour recorded as a mine — with no adjustment for known-safe
neighbours. -/
theorem C7_probe_sentence (ai : AI) (cell : Cell) (count : ℤ) :
    (ai.afterProbe cell count).knowledge
      = (({ ai with moves_made := insert cell ai.moves_made } : AI).mark_safe
          cell).knowledge
        ++ [(({ ai with
            moves_made := insert cell ai.moves_made } : AI).mark_safe
          cell).probeSentence cell count]
    ∧ ∀ b : AI, b.probeSentence cell count
        = ⟨AI.mooreNbhd b.height b.width cell \ (b.safes ∪ b.mines),
            count - ((AI.mooreNbhd b.height b.width cell ∩ b.mines).card : ℤ)⟩ := by
  refine ⟨rfl, ?_⟩
  intro b
  unfold AI.probeSentence
  rw [AI.closestAndCount_eq]

/-- C8.  `known_mines` returns the whole cell set exactly when the count
is positive and equals the number of cells, and the empty set otherwise;
`known_safes` returns the whole cell set exactly when the count is zero,
and the empty set otherwise.  Both are pure functions of the sentence. -/
theorem C8_known_sets (s : Sentence) :
    ((s.cells.card : ℤ) = s.count ∧ 0 < s.count → s.known_mines = s.cells)
    ∧ (¬((s.cells.card : ℤ) = s.count ∧ 0 < s.count) → s.known_mines = ∅)
    ∧ (s.count = 0 → s.known_safes = s.cells)
    ∧ (s.count ≠ 0 → s.known_safes = ∅) := by
  refine ⟨fun h => ?_, fun h => ?_, fun h => ?_, fun h => ?_⟩
  · unfold Sentence.known_mines
    rw [if_pos h]
  · unfold Sentence.known_mines
    rw [if_neg h]
  · unfold Sentence.known_safes
    rw [if_pos h]
  · unfold Sentence.known_safes
    rw [if_neg h]

/-- C8, witness: the spec's scenario sentences. -/
theorem C8_witness :
    Sentence.known_mines ⟨{((1 : ℤ), (1 : ℤ)), (1, 2)}, 2⟩
        = {((1 : ℤ), (1 : ℤ)), (1, 2)}
    ∧ Sentence.known_safes ⟨{((1 : ℤ), (1 : ℤ)), (1, 2)}, 0⟩
        = {((1 : ℤ), (1 : ℤ)), (1, 2)} :=
  ⟨(C8_known_sets _).1 ⟨by decide, by decide⟩,
    (C8_known_sets _).2.2.1 rfl⟩

/-- C9.  `make_safe_move` and `make_random_move` only read the engine
state: the state component they return is exactly the input state, so
`moves_made`, `safes`, `mines` and every sentence of `knowledge` are
unchanged. -/
theorem C9_moves_pure (ai : AI) :
    (ai.make_safe_move).2 = ai ∧ (ai.make_random_move).2 = ai := by
  refine ⟨rfl, ?_⟩
  unfold AI.make_random_move
  by_cases h : (ai.mines.card : ℤ) + (ai.moves_made.card : ℤ)
      = ai.height * ai.width
  · rw [if_pos h]
  · rw [if_neg h]

/-- C10.  Every engine operation only inserts into `moves_made`, `safes`
and `mines` — no cell is ever removed — and engine `mark_mine` followed by
engine `mark_safe` on the same cell leaves the cell recorded in both
sets. -/
theorem C10_monotone (ai : AI) (c cell : Cell) (count : ℤ) :
    AI.Grows ai (ai.mark_mine c) ∧ AI.Grows ai (ai.mark_safe c)
    ∧ AI.Grows ai (ai.add_knowledge cell count)
    ∧ c ∈ ((ai.mark_mine c).mark_safe c).mines
    ∧ c ∈ ((ai.mark_mine c).mark_safe c).safes := by
  refine ⟨AI.grows_mark_mine ai c, AI.grows_mark_safe ai c,
    AI.grows_add_knowledge ai cell count, ?_, ?_⟩
  · show c ∈ insert c ai.mines
    exact Finset.mem_insert_self c ai.mines
  · show c ∈ insert c (ai.mark_mine c).safes
    exact Finset.mem_insert_self c _

end Mines
